import Mathlib

/-!
Verification of the astro-cache caching core (src/cache.ts).

The development shallowly embeds the repository's cache module:
key derivation from call-argument lists (`deriveKey`, JSON.stringify
semantics), the memo and SWR wrappers with their enabled/disabled
branches, the persistent store they are backed by, and the process-wide
registry behind `clearAllCaches`.

JavaScript argument values are modelled by the mutual inductive family
`JSVal` / `JSList` / `JSFields`: null, booleans, numbers (modelled as
integers in the safe range, where JavaScript prints them in plain
decimal), strings, arrays and plain objects whose fields are kept in
insertion order, plus the two non-serializable leaves `undef` and
`func` that JSON.stringify cannot represent.  Lone surrogates and
integer-like object keys (which JavaScript reorders) are outside the
model.
-/

namespace AstroCache

mutual

inductive JSVal : Type where
  | null : JSVal
  | bool : Bool → JSVal
  | num : Int → JSVal
  | str : String → JSVal
  | undef : JSVal
  | func : JSVal
  | arr : JSList → JSVal
  | obj : JSFields → JSVal
deriving DecidableEq

inductive JSList : Type where
  | nil : JSList
  | cons : JSVal → JSList → JSList
deriving DecidableEq

inductive JSFields : Type where
  | nil : JSFields
  | cons : String → JSVal → JSFields → JSFields
deriving DecidableEq

end

/-- Decimal digit to its character, total with junk default. -/
def digitChar (d : Nat) : Char :=
  if d = 0 then '0' else if d = 1 then '1' else if d = 2 then '2'
  else if d = 3 then '3' else if d = 4 then '4' else if d = 5 then '5'
  else if d = 6 then '6' else if d = 7 then '7' else if d = 8 then '8'
  else '9'

/-- Fuel-driven decimal printer accumulating most-significant digits last. -/
def serNatAux : Nat → Nat → List Char → List Char
  | 0, _, acc => acc
  | fuel + 1, n, acc =>
    if n = 0 then acc else serNatAux fuel (n / 10) (digitChar (n % 10) :: acc)

/-- Decimal rendering of a natural number, as JavaScript prints safe integers. -/
def serNat (n : Nat) : List Char :=
  if n = 0 then ['0'] else serNatAux (n + 1) n []

/-- Decimal rendering of an integer, '-' prefix for negatives. -/
def serInt : Int → List Char
  | .ofNat n => serNat n
  | .negSucc n => '-' :: serNat (n + 1)

/-- Lowercase hexadecimal digit character. -/
def hexDig (d : Nat) : Char :=
  if d = 0 then '0' else if d = 1 then '1' else if d = 2 then '2'
  else if d = 3 then '3' else if d = 4 then '4' else if d = 5 then '5'
  else if d = 6 then '6' else if d = 7 then '7' else if d = 8 then '8'
  else if d = 9 then '9' else if d = 10 then 'a' else if d = 11 then 'b'
  else if d = 12 then 'c' else if d = 13 then 'd' else if d = 14 then 'e'
  else 'f'

/-- JSON.stringify escaping of one character inside a string literal:
quote and backslash are escaped, the five short control escapes are used,
other control characters become a lowercase unicode escape, and every
other character is emitted verbatim. -/
def escChar (c : Char) : List Char :=
  if c = '"' then ['\\', '"']
  else if c = '\\' then ['\\', '\\']
  else if c.toNat = 8 then ['\\', 'b']
  else if c.toNat = 9 then ['\\', 't']
  else if c.toNat = 10 then ['\\', 'n']
  else if c.toNat = 12 then ['\\', 'f']
  else if c.toNat = 13 then ['\\', 'r']
  else if c.toNat < 32 then
    ['\\', 'u', '0', '0', hexDig (c.toNat / 16), hexDig (c.toNat % 16)]
  else [c]

/-- Escape every character of a string body. -/
def escList : List Char → List Char
  | [] => []
  | c :: cs => escChar c ++ escList cs

/-- JSON.stringify rendering of a string: quoted and escaped. -/
def serStr (s : String) : List Char :=
  '"' :: (escList s.data ++ ['"'])

/-- Values JSON.stringify drops when they appear as object field values
(and renders as null in array positions). -/
def skipVal : JSVal → Bool
  | .undef => true
  | .func => true
  | _ => false

/-- True when at least one remaining field will be serialized. -/
def hasField : JSFields → Bool
  | .nil => false
  | .cons _ v tl => !skipVal v || hasField tl

mutual

/-- JSON.stringify of a value sitting in array-element position:
non-serializable leaves render as null, objects drop such fields. -/
def serVal : JSVal → List Char
  | .num i => serInt i
  | .str s => serStr s
  | .undef => ['n', 'u', 'l', 'l']
  | .func => ['n', 'u', 'l', 'l']
  | .null => ['n', 'u', 'l', 'l']
  | .bool b => if b then ['t', 'r', 'u', 'e'] else ['f', 'a', 'l', 's', 'e']
  | .arr l => '[' :: (serElems l ++ [']'])
  | .obj l => '\x7b' :: (serFields l ++ ['\x7d'])

/-- Comma-separated serialization of array elements. -/
def serElems : JSList → List Char
  | .nil => []
  | .cons v .nil => serVal v
  | .cons v (.cons w tl) => serVal v ++ ',' :: serElems (.cons w tl)

/-- Comma-separated serialization of object fields, dropping
non-serializable field values exactly as JSON.stringify does. -/
def serFields : JSFields → List Char
  | .nil => []
  | .cons k v tl =>
    if skipVal v then serFields tl
    else serStr k ++ ':' :: serVal v ++
      (if hasField tl then ',' :: serFields tl else serFields tl)

end

/-- Conversion from a Lean list of argument values to the embedded array. -/
def listToJS : List JSVal → JSList
  | [] => .nil
  | v :: vs => .cons v (listToJS vs)

/-- Embedding of `deriveKey` (src/cache.ts lines 16-18):
`args.length === 0 ? "_" : JSON.stringify(args)`. -/
def deriveKey (args : List JSVal) : String :=
  if args.isEmpty then "_" else String.mk (serVal (.arr (listToJS args)))

mutual

/-- A value is JSON-representable when it contains no non-serializable leaf. -/
def isJSON : JSVal → Bool
  | .undef => false
  | .func => false
  | .arr l => isJSONL l
  | .obj l => isJSONF l
  | _ => true

def isJSONL : JSList → Bool
  | .nil => true
  | .cons v tl => isJSON v && isJSONL tl

def isJSONF : JSFields → Bool
  | .nil => true
  | .cons _ v tl => isJSON v && isJSONF tl

end

/-- All argument values are JSON-representable. -/
def argsJSON (args : List JSVal) : Bool :=
  args.all isJSON

mutual

/-- Canonicalization JSON.stringify silently applies in array positions:
non-serializable leaves become null, and object fields holding them are
dropped. -/
def canon : JSVal → JSVal
  | .undef => .null
  | .func => .null
  | .arr l => .arr (canonL l)
  | .obj l => .obj (canonF l)
  | v => v

def canonL : JSList → JSList
  | .nil => .nil
  | .cons v tl => .cons (canon v) (canonL tl)

def canonF : JSFields → JSFields
  | .nil => .nil
  | .cons k v tl =>
    if skipVal v then canonF tl else .cons k (canon v) (canonF tl)

end

/-- Number of fields of an object. -/
def fieldsLen : JSFields → Nat
  | .nil => 0
  | .cons _ _ tl => fieldsLen tl + 1

/-- Field lookup by key. -/
def lookupF (k : String) : JSFields → Option JSVal
  | .nil => none
  | .cons k' v tl => if k' == k then some v else lookupF k tl

mutual

/-- JavaScript-style deep structural equality (the notion used by
isDeepStrictEqual and test frameworks): arrays elementwise, objects as
key-value maps regardless of field insertion order. -/
def jsDeepEqual : JSVal → JSVal → Bool
  | .null, .null => true
  | .bool a, .bool b => a == b
  | .num a, .num b => a == b
  | .str a, .str b => a == b
  | .undef, .undef => true
  | .func, .func => true
  | .arr a, .arr b => jsDeepEqualL a b
  | .obj a, .obj b => fieldsLen a == fieldsLen b && jsDeepEqualF a b
  | _, _ => false

def jsDeepEqualL : JSList → JSList → Bool
  | .nil, .nil => true
  | .cons v vs, .cons w ws => jsDeepEqual v w && jsDeepEqualL vs ws
  | _, _ => false

/-- Every field of the first object matches a field of the second. -/
def jsDeepEqualF : JSFields → JSFields → Bool
  | .nil, _ => true
  | .cons k v tl, gs =>
    (match lookupF k gs with
     | some w => jsDeepEqual v w
     | none => false) && jsDeepEqualF tl gs

end

/-- Deep equality of two argument lists: same length, elementwise
deep-equal. -/
def jsDeepEqualArgs (a b : List JSVal) : Bool :=
  jsDeepEqualL (listToJS a) (listToJS b)

/-- Decimal digit character test. -/
def isDigitC (c : Char) : Bool :=
  48 ≤ c.toNat && c.toNat ≤ 57

/-- Character to decimal digit value. -/
def charToDigit (c : Char) : Nat :=
  c.toNat - 48

/-- Decode a big-endian list of decimal digit characters. -/
def decodeNat (cs : List Char) : Nat :=
  Nat.ofDigits 10 ((cs.map charToDigit).reverse)

/-- Parse an optionally negated maximal run of decimal digits. -/
def parseNum : List Char → Option (Int × List Char)
  | [] => none
  | c :: rest =>
    if c = '-' then
      let ds := rest.takeWhile isDigitC
      if ds.isEmpty then none
      else some (-(decodeNat ds : Int), rest.dropWhile isDigitC)
    else
      let ds := (c :: rest).takeWhile isDigitC
      if ds.isEmpty then none
      else some ((decodeNat ds : Int), (c :: rest).dropWhile isDigitC)

/-- Hexadecimal digit value of a lowercase hex character. -/
def hexVal (c : Char) : Option Nat :=
  if c = '0' then some 0 else if c = '1' then some 1
  else if c = '2' then some 2 else if c = '3' then some 3
  else if c = '4' then some 4 else if c = '5' then some 5
  else if c = '6' then some 6 else if c = '7' then some 7
  else if c = '8' then some 8 else if c = '9' then some 9
  else if c = 'a' then some 10 else if c = 'b' then some 11
  else if c = 'c' then some 12 else if c = 'd' then some 13
  else if c = 'e' then some 14 else if c = 'f' then some 15
  else none

mutual

/-- Parse a string body (after the opening quote) up to the closing
quote, undoing the escapes the serializer can produce. -/
def parseStrBody : List Char → Option (List Char × List Char)
  | [] => none
  | c :: r =>
    if c = '"' then some ([], r)
    else if c = '\\' then parseEsc r
    else (parseStrBody r).map (fun p => (c :: p.1, p.2))

/-- Parse the remainder of an escape sequence after the backslash. -/
def parseEsc : List Char → Option (List Char × List Char)
  | [] => none
  | e :: r1 =>
    if e = '"' then (parseStrBody r1).map (fun p => ('"' :: p.1, p.2))
    else if e = '\\' then (parseStrBody r1).map (fun p => ('\\' :: p.1, p.2))
    else if e = 'b' then
      (parseStrBody r1).map (fun p => (Char.ofNat 8 :: p.1, p.2))
    else if e = 't' then
      (parseStrBody r1).map (fun p => (Char.ofNat 9 :: p.1, p.2))
    else if e = 'n' then
      (parseStrBody r1).map (fun p => (Char.ofNat 10 :: p.1, p.2))
    else if e = 'f' then
      (parseStrBody r1).map (fun p => (Char.ofNat 12 :: p.1, p.2))
    else if e = 'r' then
      (parseStrBody r1).map (fun p => (Char.ofNat 13 :: p.1, p.2))
    else if e = 'u' then parseUni r1
    else none

/-- Parse the four hex digits of a unicode escape. -/
def parseUni : List Char → Option (List Char × List Char)
  | '0' :: '0' :: h1 :: h2 :: r2 =>
    (hexVal h1).bind fun d1 =>
      (hexVal h2).bind fun d2 =>
        (parseStrBody r2).map (fun p => (Char.ofNat (16 * d1 + d2) :: p.1, p.2))
  | _ => none

end

mutual

/-- Fuel-driven parser for serialized values. -/
def parseVal : Nat → List Char → Option (JSVal × List Char)
  | 0, _ => none
  | fuel + 1, cs =>
    match cs with
    | [] => none
    | c :: r =>
      if c = 'n' then
        match r with
        | 'u' :: 'l' :: 'l' :: r1 => some (.null, r1)
        | _ => none
      else if c = 't' then
        match r with
        | 'r' :: 'u' :: 'e' :: r1 => some (.bool true, r1)
        | _ => none
      else if c = 'f' then
        match r with
        | 'a' :: 'l' :: 's' :: 'e' :: r1 => some (.bool false, r1)
        | _ => none
      else if c = '"' then
        (parseStrBody r).map (fun p => (.str (String.mk p.1), p.2))
      else if c = '[' then
        match r with
        | [] => none
        | d :: r2 =>
          if d = ']' then some (.arr .nil, r2)
          else (parseElems fuel (d :: r2)).map (fun p => (.arr p.1, p.2))
      else if c = '\x7b' then
        match r with
        | [] => none
        | d :: r2 =>
          if d = '\x7d' then some (.obj .nil, r2)
          else (parseFields fuel (d :: r2)).map (fun p => (.obj p.1, p.2))
      else
        (parseNum (c :: r)).map (fun p => (.num p.1, p.2))

/-- Parse one or more comma-separated elements up to a closing bracket. -/
def parseElems : Nat → List Char → Option (JSList × List Char)
  | 0, _ => none
  | fuel + 1, cs =>
    match parseVal fuel cs with
    | none => none
    | some (v, r) =>
      match r with
      | ',' :: r1 => (parseElems fuel r1).map (fun p => (.cons v p.1, p.2))
      | ']' :: r1 => some (.cons v .nil, r1)
      | _ => none

/-- Parse one or more comma-separated fields up to a closing brace. -/
def parseFields : Nat → List Char → Option (JSFields × List Char)
  | 0, _ => none
  | fuel + 1, cs =>
    match cs with
    | '"' :: r =>
      match parseStrBody r with
      | none => none
      | some (kcs, r1) =>
        match r1 with
        | ':' :: r2 =>
          match parseVal fuel r2 with
          | none => none
          | some (v, r3) =>
            match r3 with
            | ',' :: r4 =>
              (parseFields fuel r4).map
                (fun p => (.cons (String.mk kcs) v p.1, p.2))
            | '\x7d' :: r4 => some (.cons (String.mk kcs) v .nil, r4)
            | _ => none
        | _ => none
    | _ => none

end

/-- Continuations the serializer can leave after a complete value:
either end of input or a delimiter, never a digit. -/
def headOk : List Char → Bool
  | [] => true
  | c :: _ => c == ',' || c == ']' || c == '\x7d'

/-- Per-instance state: the persistent store's entries, the producer's
private state and the number of producer invocations so far. -/
structure CacheSt (V P : Type) where
  store : List (String × V × Nat)
  pstate : P
  calls : Nat

/-- Newest-first association lookup. -/
def storeLookup {V : Type} : List (String × V × Nat) → String → Option (V × Nat)
  | [], _ => none
  | (k, v, t) :: es, key => if k = key then some (v, t) else storeLookup es key

/-- Modelled from the spec: the TTL backstop of the flat-cache store
dependency (spec section 4.2; the library itself is not part of src/):
entries older than a non-zero `ttl` behave as absent, `ttl = 0` never
expires. -/
def aliveAt (ttl storedAt now : Nat) : Bool :=
  ttl == 0 || decide (now ≤ storedAt + ttl)

/-- Modelled from the spec: `get` of the flat-cache store dependency
(spec section 4.2): a present, unexpired entry with its timestamp,
otherwise absent. -/
def flatGet {V : Type} (ttl : Nat) (es : List (String × V × Nat))
    (key : String) (now : Nat) : Option (V × Nat) :=
  match storeLookup es key with
  | some (v, t) => if aliveAt ttl t now then some (v, t) else none
  | none => none

/-- Modelled from the spec: `set` of the flat-cache store dependency
(spec section 4.2): record the value with the current time. -/
def storeSet {V : Type} (es : List (String × V × Nat)) (key : String)
    (v : V) (now : Nat) : List (String × V × Nat) :=
  (key, v, now) :: es

/-- The value the memo wrapper reads before its hit test: the JavaScript
result of `flatCache.get(key)`, where `none` plays `undefined` (absent,
expired, or a stored undefined). -/
def memoGet {β : Type} (ttl : Nat) (es : List (String × Option β × Nat))
    (key : String) (now : Nat) : Option β :=
  match flatGet ttl es key now with
  | some (v, _) => v
  | none => none

/-- A wrapped cache instance: the callable plus its `.clear()`; `clear`
returns `some e` when it throws. -/
structure Wrapped (A V P : Type) where
  call : List JSVal → Nat → CacheSt V P → A × CacheSt V P
  clear : CacheSt V P → Option Unit × CacheSt V P

/-- Embedding of `memo` (src/cache.ts lines 111-154).  When caching is
disabled the wrapper calls `fn` directly and `clear` is a no-op; when
enabled, a defined (`some`) stored value within `ttl` is returned without
invoking the producer, and a miss invokes the producer, stores the result
and returns it.  `clear` empties the store. -/
def memo {β P : Type} (enabled : Bool) (ttl : Nat)
    (fn : List JSVal → P → Option β × P) : Wrapped (Option β) (Option β) P :=
  if enabled = false then
    { call := fun args _ st =>
        let r := fn args st.pstate
        (r.1, { st with pstate := r.2, calls := st.calls + 1 })
      clear := fun st => (none, st) }
  else
    { call := fun args now st =>
        let key := deriveKey args
        match memoGet ttl st.store key now with
        | some v => (some v, st)
        | none =>
          let r := fn args st.pstate
          (r.1, { store := storeSet st.store key r.1 now,
                  pstate := r.2, calls := st.calls + 1 })
      clear := fun st => (none, { st with store := [] }) }

/-- Modelled from the spec: the SWR state machine (spec section 4.4) of
the stale-while-revalidate-cache dependency (not part of src/), composed
with the flat-cache storage exactly as `swr` wires it (src/cache.ts
lines 35-92): an absent or expired entry blocks on the producer and the
result is stored with a fresh timestamp; a fresh entry is returned with
no producer invocation; a stale entry is returned while a revalidation
invokes the producer and overwrites the store.  `flatTtl` is the store's
physical TTL backstop (`FLAT_CACHE_TTL`). -/
def swr {β P : Type} (enabled : Bool)
    (minTimeToStale maxTimeToLive flatTtl : Nat)
    (fn : List JSVal → P → β × P) : Wrapped β β P :=
  if enabled = false then
    { call := fun args _ st =>
        let r := fn args st.pstate
        (r.1, { st with pstate := r.2, calls := st.calls + 1 })
      clear := fun st => (none, st) }
  else
    { call := fun args now st =>
        let key := deriveKey args
        match flatGet flatTtl st.store key now with
        | none =>
          let r := fn args st.pstate
          (r.1, { store := storeSet st.store key r.1 now,
                  pstate := r.2, calls := st.calls + 1 })
        | some (v, t) =>
          if now - t < minTimeToStale then (v, st)
          else if now - t < maxTimeToLive then
            let r := fn args st.pstate
            (v, { store := storeSet st.store key r.1 now,
                  pstate := r.2, calls := st.calls + 1 })
          else
            let r := fn args st.pstate
            (r.1, { store := storeSet st.store key r.1 now,
                    pstate := r.2, calls := st.calls + 1 })
      clear := fun st => (none, { st with store := [] }) }

/-- Embedding of `FLAT_CACHE_TTL` (src/cache.ts line 10):
`ASTRO_CACHE_MAX_TIME_TO_LIVE * 2`, the GC backstop. -/
def FLAT_CACHE_TTL (maxTimeToLive : Nat) : Nat :=
  maxTimeToLive * 2

/-- Embedding of the `lruSize` option computed for SWR stores
(src/cache.ts line 51):
`(options.max ?? 0) === 0 ? 0 : (options.max ?? 0) * 2`. -/
def swrLruSize (max : Option Nat) : Nat :=
  if max.getD 0 = 0 then 0 else max.getD 0 * 2

/-- Run the wrapped function once per argument list, threading state. -/
def runCallsOn {A V P : Type} (w : Wrapped A V P) (now : Nat) :
    List (List JSVal) → CacheSt V P → List A × CacheSt V P
  | [], st => ([], st)
  | args :: rest, st =>
    let r := w.call args now st
    let rs := runCallsOn w now rest r.2
    (r.1 :: rs.1, rs.2)

/-- Direct iteration of the bare producer over the same argument lists. -/
def prodRunArgs {A P : Type} (fn : List JSVal → P → A × P) :
    List (List JSVal) → P → List A × P
  | [], p => ([], p)
  | args :: rest, p =>
    let r := fn args p
    let rs := prodRunArgs fn rest r.2
    (r.1 :: rs.1, rs.2)

/-- Embedding of `clearAllCaches` (src/cache.ts lines 157-161) over the
registry contents: the for-loop calls `.clear()` in registration order,
and, as in JavaScript, an exception (`some e`) aborts the loop and
propagates to the caller. -/
def clearAllCaches {W E : Type} : List (W → Option E × W) → W → Option E × W
  | [], w => (none, w)
  | c :: cs, w =>
    let r := c w
    match r.1 with
    | some e => (some e, r.2)
    | none => clearAllCaches cs r.2

/-- Instrumented clearable instance: appends its index to the world's
invocation log, then succeeds or throws according to `fails`. -/
def mkInst (i : Nat) (fails : Bool) : List Nat → Option Unit × List Nat :=
  fun w => ((if fails then some () else none), w ++ [i])

/-- Version-counter producer for the staleness scenario (memo shape):
each invocation returns `some (n+1)` and advances its state. -/
def verProdMemo : List JSVal → Nat → Option Nat × Nat :=
  fun _ n => (some (n + 1), n + 1)

/-- Version-counter producer for the staleness scenario (SWR shape). -/
def verProdSwr : List JSVal → Nat → Nat × Nat :=
  fun _ n => (n + 1, n + 1)

theorem skipVal_canon : ∀ v, skipVal (canon v) = false := by
  intro v
  cases v <;> rfl

mutual

theorem isJSON_canon : ∀ v, isJSON (canon v) = true
  | .null => rfl
  | .bool _ => rfl
  | .num _ => rfl
  | .str _ => rfl
  | .undef => rfl
  | .func => rfl
  | .arr l => by simp only [canon, isJSON, isJSONL_canon l]
  | .obj l => by simp only [canon, isJSON, isJSONF_canon l]

theorem isJSONL_canon : ∀ l, isJSONL (canonL l) = true
  | .nil => rfl
  | .cons v tl => by
    simp only [canonL, isJSONL, isJSON_canon v, isJSONL_canon tl, Bool.and_self]

theorem isJSONF_canon : ∀ fs, isJSONF (canonF fs) = true
  | .nil => rfl
  | .cons k v tl => by
    by_cases h : skipVal v = true
    · simp only [canonF, h, if_true, isJSONF_canon tl]
    · simp only [Bool.not_eq_true] at h
      simp only [canonF, h, Bool.false_eq_true, if_false, isJSONF,
        isJSON_canon v, isJSONF_canon tl, Bool.and_self]

end

theorem hasField_canonF : ∀ fs, hasField (canonF fs) = hasField fs
  | .nil => rfl
  | .cons k v tl => by
    by_cases h : skipVal v = true
    · simp [canonF, hasField, h, hasField_canonF tl]
    · simp only [Bool.not_eq_true] at h
      simp [canonF, hasField, h, hasField_canonF tl, skipVal_canon]

mutual

theorem serVal_canon : ∀ v, serVal (canon v) = serVal v
  | .null => rfl
  | .bool true => rfl
  | .bool false => rfl
  | .num _ => rfl
  | .str _ => rfl
  | .undef => rfl
  | .func => rfl
  | .arr l => by simp only [canon, serVal, serElems_canon l]
  | .obj l => by simp only [canon, serVal, serFields_canon l]

theorem serElems_canon : ∀ l, serElems (canonL l) = serElems l
  | .nil => rfl
  | .cons v .nil => by simp only [canonL, serElems, serVal_canon v]
  | .cons v (.cons w tl) => by
    have h := serElems_canon (JSList.cons w tl)
    simp only [canonL] at h
    simp only [canonL, serElems, serVal_canon v, h]

theorem serFields_canon : ∀ fs, serFields (canonF fs) = serFields fs
  | .nil => rfl
  | .cons k v tl => by
    by_cases h : skipVal v = true
    · simp only [canonF, serFields, h, if_true, serFields_canon tl]
    · simp only [Bool.not_eq_true] at h
      simp only [canonF, serFields, h, if_false, Bool.false_eq_true,
        skipVal_canon, serVal_canon v, serFields_canon tl, hasField_canonF]

end

theorem digitChar_toNat {d : Nat} (h : d < 10) :
    (digitChar d).toNat = 48 + d := by
  interval_cases d <;> rfl

theorem isDigitC_digitChar {d : Nat} (h : d < 10) :
    isDigitC (digitChar d) = true := by
  simp [isDigitC, digitChar_toNat h]
  omega

theorem charToDigit_digitChar {d : Nat} (h : d < 10) :
    charToDigit (digitChar d) = d := by
  simp [charToDigit, digitChar_toNat h]

theorem serNatAux_eq :
    ∀ fuel n acc, n ≤ fuel →
      serNatAux fuel n acc = ((Nat.digits 10 n).reverse.map digitChar) ++ acc := by
  intro fuel
  induction fuel with
  | zero =>
    intro n acc h
    interval_cases n
    simp [serNatAux, Nat.digits_zero]
  | succ fuel ih =>
    intro n acc h
    by_cases hn : n = 0
    · subst hn
      simp [serNatAux, Nat.digits_zero]
    · have hdiv : n / 10 < n := Nat.div_lt_self (Nat.pos_of_ne_zero hn) (by omega)
      have : serNatAux (fuel + 1) n acc
          = serNatAux fuel (n / 10) (digitChar (n % 10) :: acc) := by
        simp [serNatAux, hn]
      rw [this, ih (n / 10) _ (by omega),
        Nat.digits_def' (by norm_num : 1 < 10) (Nat.pos_of_ne_zero hn)]
      simp

theorem serNat_eq {n : Nat} (h : n ≠ 0) :
    serNat n = (Nat.digits 10 n).reverse.map digitChar := by
  rw [serNat, if_neg h, serNatAux_eq (n + 1) n [] (by omega), List.append_nil]

theorem serNat_all_digits : ∀ c ∈ serNat n, isDigitC c = true := by
  intro c hc
  by_cases h : n = 0
  · subst h
    simp [serNat] at hc
    subst hc
    rfl
  · rw [serNat_eq h] at hc
    simp only [List.mem_map, List.mem_reverse] at hc
    obtain ⟨d, hd, rfl⟩ := hc
    exact isDigitC_digitChar (Nat.digits_lt_base (by norm_num) hd)

theorem serNat_ne_nil : serNat n ≠ [] := by
  by_cases h : n = 0
  · subst h
    simp [serNat]
  · rw [serNat_eq h]
    simp [Nat.digits_ne_nil_iff_ne_zero.mpr h]

theorem decodeNat_serNat (n : Nat) : decodeNat (serNat n) = n := by
  by_cases h : n = 0
  · subst h
    rfl
  · rw [serNat_eq h, decodeNat, List.map_map, List.map_reverse,
      List.reverse_reverse]
    have : (Nat.digits 10 n).map (charToDigit ∘ digitChar)
        = (Nat.digits 10 n).map id := by
      apply List.map_congr_left
      intro d hd
      exact charToDigit_digitChar (Nat.digits_lt_base (by norm_num) hd)
    rw [this, List.map_id, Nat.ofDigits_digits]

theorem takeWhile_append_all {p : Char → Bool} :
    ∀ xs ys, (∀ x ∈ xs, p x = true) →
      (∀ y t, ys = y :: t → p y = false) →
      (xs ++ ys).takeWhile p = xs ∧ (xs ++ ys).dropWhile p = ys := by
  intro xs
  induction xs with
  | nil =>
    intro ys _ hy
    cases ys with
    | nil => exact ⟨rfl, rfl⟩
    | cons y t =>
      simp [List.takeWhile, List.dropWhile, hy y t rfl]
  | cons x xs ih =>
    intro ys hx hy
    have hpx : p x = true := hx x (by simp)
    have := ih ys (fun z hz => hx z (by simp [hz])) hy
    simp [List.takeWhile, List.dropWhile, hpx, this.1, this.2]

theorem headOk_not_digit {r : List Char} (h : headOk r = true) :
    ∀ y t, r = y :: t → isDigitC y = false := by
  intro y t hr
  subst hr
  simp only [headOk, Bool.or_eq_true, beq_iff_eq] at h
  rcases h with (h | h) | h <;> subst h <;> decide

theorem isDigitC_toNat {c : Char} (h : isDigitC c = true) :
    48 ≤ c.toNat ∧ c.toNat ≤ 57 := by
  simpa [isDigitC] using h

theorem parseNum_ser {i : Int} {r : List Char} (hr : headOk r = true) :
    parseNum (serInt i ++ r) = some (i, r) := by
  cases i with
  | ofNat n =>
    obtain ⟨c, t, hct⟩ : ∃ c t, serNat n = c :: t := by
      cases hs : serNat n with
      | nil => exact absurd hs serNat_ne_nil
      | cons c t => exact ⟨c, t, rfl⟩
    have hdigits := serNat_all_digits (n := n)
    have hc : isDigitC c = true := hdigits c (by rw [hct]; simp)
    have htw := takeWhile_append_all (p := isDigitC) (serNat n) r hdigits
      (headOk_not_digit hr)
    have hcne : c ≠ '-' := by
      intro hEq
      rw [hEq] at hc
      exact absurd hc (by decide)
    show parseNum (serNat n ++ r) = some (Int.ofNat n, r)
    rw [hct, List.cons_append]
    simp only [parseNum, if_neg hcne]
    rw [← List.cons_append, ← hct, htw.1, htw.2]
    simp [List.isEmpty_iff, serNat_ne_nil, decodeNat_serNat]
  | negSucc n =>
    have hdigits := serNat_all_digits (n := n + 1)
    have htw := takeWhile_append_all (p := isDigitC) (serNat (n + 1)) r hdigits
      (headOk_not_digit hr)
    show parseNum (('-' :: serNat (n + 1)) ++ r) = some (Int.negSucc n, r)
    rw [List.cons_append]
    simp only [parseNum, if_pos]
    rw [htw.1, htw.2]
    have hneg : -((decodeNat (serNat (n + 1)) : Nat) : Int) = Int.negSucc n := by
      rw [decodeNat_serNat, Int.negSucc_eq]
      push_cast
      ring
    simp [List.isEmpty_iff, serNat_ne_nil, hneg]

theorem hexVal_hexDig {d : Nat} (h : d < 16) : hexVal (hexDig d) = some d := by
  interval_cases d <;> rfl

theorem parseStrBody_escChar (c : Char) (rest : List Char) :
    parseStrBody (escChar c ++ rest)
      = (parseStrBody rest).map (fun p => (c :: p.1, p.2)) := by
  by_cases h1 : c = '"'
  · subst h1
    simp [escChar, parseStrBody, parseEsc]
  by_cases h2 : c = '\\'
  · subst h2
    simp [escChar, parseStrBody, parseEsc]
  by_cases h3 : c.toNat = 8
  · have hc : c = Char.ofNat 8 := by rw [← h3, Char.ofNat_toNat]
    subst hc
    rw [show escChar (Char.ofNat 8) = ['\\', 'b'] from rfl]
    simp [parseStrBody, parseEsc]
  by_cases h4 : c.toNat = 9
  · have hc : c = Char.ofNat 9 := by rw [← h4, Char.ofNat_toNat]
    subst hc
    rw [show escChar (Char.ofNat 9) = ['\\', 't'] from rfl]
    simp [parseStrBody, parseEsc]
  by_cases h5 : c.toNat = 10
  · have hc : c = Char.ofNat 10 := by rw [← h5, Char.ofNat_toNat]
    subst hc
    rw [show escChar (Char.ofNat 10) = ['\\', 'n'] from rfl]
    simp [parseStrBody, parseEsc]
  by_cases h6 : c.toNat = 12
  · have hc : c = Char.ofNat 12 := by rw [← h6, Char.ofNat_toNat]
    subst hc
    rw [show escChar (Char.ofNat 12) = ['\\', 'f'] from rfl]
    simp [parseStrBody, parseEsc]
  by_cases h7 : c.toNat = 13
  · have hc : c = Char.ofNat 13 := by rw [← h7, Char.ofNat_toNat]
    subst hc
    rw [show escChar (Char.ofNat 13) = ['\\', 'r'] from rfl]
    simp [parseStrBody, parseEsc]
  by_cases h8 : c.toNat < 32
  · have he : escChar c
        = ['\\', 'u', '0', '0', hexDig (c.toNat / 16), hexDig (c.toNat % 16)] := by
      simp [escChar, h1, h2, h3, h4, h5, h6, h7, h8]
    rw [he]
    have hp : parseStrBody
        ('\\' :: 'u' :: '0' :: '0' :: hexDig (c.toNat / 16)
          :: hexDig (c.toNat % 16) :: rest)
        = (parseStrBody rest).map
            (fun p => (Char.ofNat (16 * (c.toNat / 16) + c.toNat % 16)
              :: p.1, p.2)) := by
      simp [parseStrBody, parseEsc, parseUni,
        hexVal_hexDig (show c.toNat / 16 < 16 by omega),
        hexVal_hexDig (show c.toNat % 16 < 16 by omega)]
    simp only [List.cons_append, List.nil_append] at hp ⊢
    rw [hp, Nat.div_add_mod, Char.ofNat_toNat]
  · have he : escChar c = [c] := by
      simp [escChar, h1, h2, h3, h4, h5, h6, h7, h8]
    rw [he, List.singleton_append]
    simp [parseStrBody, h1, h2]

theorem parseStrBody_escList :
    ∀ cs rest, parseStrBody (escList cs ++ '"' :: rest) = some (cs, rest) := by
  intro cs
  induction cs with
  | nil =>
    intro rest
    simp [escList, parseStrBody]
  | cons c cs ih =>
    intro rest
    rw [escList, List.append_assoc, parseStrBody_escChar, ih]
    rfl

theorem ne_of_toNat {a b : Char} (h : a.toNat ≠ b.toNat) : a ≠ b :=
  fun hEq => h (by rw [hEq])

theorem skip_of_isJSON {v : JSVal} (h : isJSON v = true) : skipVal v = false := by
  cases v <;> simp_all [isJSON, skipVal]

theorem serInt_head (i : Int) :
    ∃ c t, serInt i = c :: t ∧ (isDigitC c = true ∨ c = '-') := by
  cases i with
  | ofNat n =>
    cases hs : serNat n with
    | nil => exact absurd hs serNat_ne_nil
    | cons c t =>
      exact ⟨c, t, hs, Or.inl (serNat_all_digits c (by rw [hs]; simp))⟩
  | negSucc n => exact ⟨'-', serNat (n + 1), rfl, Or.inr rfl⟩

theorem numHead_ne {c : Char} (h : isDigitC c = true ∨ c = '-') :
    c ≠ 'n' ∧ c ≠ 't' ∧ c ≠ 'f' ∧ c ≠ '"' ∧ c ≠ '[' ∧ c ≠ '\x7b' := by
  rcases h with h | h
  · obtain ⟨h1, h2⟩ := isDigitC_toNat h
    have e1 : ('n' : Char).toNat = 110 := rfl
    have e2 : ('t' : Char).toNat = 116 := rfl
    have e3 : ('f' : Char).toNat = 102 := rfl
    have e4 : ('"' : Char).toNat = 34 := rfl
    have e5 : ('[' : Char).toNat = 91 := rfl
    have e6 : ('\x7b' : Char).toNat = 123 := rfl
    refine ⟨ne_of_toNat ?_, ne_of_toNat ?_, ne_of_toNat ?_, ne_of_toNat ?_,
      ne_of_toNat ?_, ne_of_toNat ?_⟩ <;> omega
  · subst h
    refine ⟨by decide, by decide, by decide, by decide, by decide, by decide⟩

theorem serVal_head {v : JSVal} (h : isJSON v = true) :
    ∃ c t, serVal v = c :: t ∧ c ≠ ']' ∧ c ≠ '\x7d' := by
  cases v with
  | null => exact ⟨'n', _, rfl, by decide, by decide⟩
  | bool b =>
    cases b with
    | true => exact ⟨'t', _, rfl, by decide, by decide⟩
    | false => exact ⟨'f', _, rfl, by decide, by decide⟩
  | num i =>
    obtain ⟨c, t, hct, hcd⟩ := serInt_head i
    have e1 : (']' : Char).toNat = 93 := rfl
    have e2 : ('\x7d' : Char).toNat = 125 := rfl
    refine ⟨c, t, hct, ?_, ?_⟩
    · rcases hcd with hd | hd
      · obtain ⟨h1, h2⟩ := isDigitC_toNat hd
        exact ne_of_toNat (by omega)
      · subst hd; decide
    · rcases hcd with hd | hd
      · obtain ⟨h1, h2⟩ := isDigitC_toNat hd
        exact ne_of_toNat (by omega)
      · subst hd; decide
  | str s => exact ⟨'"', _, rfl, by decide, by decide⟩
  | undef => simp [isJSON] at h
  | func => simp [isJSON] at h
  | arr l => exact ⟨'[', _, rfl, by decide, by decide⟩
  | obj l => exact ⟨'\x7b', _, rfl, by decide, by decide⟩

theorem serElems_head {l : JSList} (hne : l ≠ .nil) (h : isJSONL l = true) :
    ∃ c t, serElems l = c :: t ∧ c ≠ ']' ∧ c ≠ '\x7d' := by
  cases l with
  | nil => exact absurd rfl hne
  | cons v tl =>
    simp only [isJSONL, Bool.and_eq_true] at h
    obtain ⟨c, t, hct, h1, h2⟩ := serVal_head h.1
    cases tl with
    | nil => exact ⟨c, t, by rw [serElems, hct], h1, h2⟩
    | cons w tl2 =>
      exact ⟨c, t ++ ',' :: serElems (.cons w tl2),
        by rw [serElems, hct, List.cons_append], h1, h2⟩

theorem serFields_head {fs : JSFields} (hne : fs ≠ .nil)
    (h : isJSONF fs = true) : ∃ t, serFields fs = '"' :: t := by
  cases fs with
  | nil => exact absurd rfl hne
  | cons k v tl =>
    simp only [isJSONF, Bool.and_eq_true] at h
    rw [serFields, if_neg (by simp [skip_of_isJSON h.1])]
    rw [serStr]
    exact ⟨(escList k.data ++ ['"'] ++ ':' :: serVal v)
      ++ (if hasField tl = true then ',' :: serFields tl else serFields tl),
      List.cons_append _ _ _⟩

theorem sizeOf_val_pos (v : JSVal) : 1 ≤ sizeOf v := by
  cases v <;> simp_arith

theorem sizeOf_list_pos (l : JSList) : 1 ≤ sizeOf l := by
  cases l <;> simp_arith

theorem sizeOf_fields_pos (fs : JSFields) : 1 ≤ sizeOf fs := by
  cases fs <;> simp_arith

/-- Printer-parser roundtrip: with enough fuel, the parser recovers every
JSON-representable value from its serialization, leaving the continuation
untouched.  This makes the serializer injective on such values. -/
theorem roundtrip : ∀ fuel : Nat,
    (∀ v r, isJSON v = true → sizeOf v ≤ fuel → headOk r = true →
      parseVal fuel (serVal v ++ r) = some (v, r)) ∧
    (∀ l r, l ≠ JSList.nil → isJSONL l = true → sizeOf l ≤ fuel →
      parseElems fuel (serElems l ++ ']' :: r) = some (l, r)) ∧
    (∀ fs r, fs ≠ JSFields.nil → isJSONF fs = true → sizeOf fs ≤ fuel →
      parseFields fuel (serFields fs ++ '\x7d' :: r) = some (fs, r)) := by
  intro fuel
  induction fuel using Nat.strong_induction_on with
  | _ fuel ih =>
  match fuel with
  | 0 =>
    refine ⟨fun v r hJ hsz hr => ?_, fun l r hne hJ hsz => ?_,
      fun fs r hne hJ hsz => ?_⟩
    · have := sizeOf_val_pos v
      omega
    · have := sizeOf_list_pos l
      omega
    · have := sizeOf_fields_pos fs
      omega
  | f + 1 =>
    have IH := ih f (Nat.lt_succ_self f)
    refine ⟨fun v r hJ hsz hr => ?_, fun l r hne hJ hsz => ?_,
      fun fs r hne hJ hsz => ?_⟩
    · cases v with
      | undef => simp [isJSON] at hJ
      | func => simp [isJSON] at hJ
      | null => simp [serVal, parseVal]
      | bool b => cases b <;> simp [serVal, parseVal]
      | num i =>
        obtain ⟨c, t, hct, hcd⟩ := serInt_head i
        obtain ⟨n1, n2, n3, n4, n5, n6⟩ := numHead_ne hcd
        rw [show serVal (.num i) = serInt i from rfl, hct, List.cons_append]
        simp only [parseVal]
        rw [if_neg n1, if_neg n2, if_neg n3, if_neg n4, if_neg n5, if_neg n6]
        rw [← List.cons_append, ← hct, parseNum_ser hr]
        rfl
      | str s =>
        have hser : serVal (.str s) ++ r
            = '"' :: (escList s.data ++ '"' :: r) := by
          rw [show serVal (.str s) = '"' :: (escList s.data ++ ['"']) from rfl]
          simp
        rw [hser]
        simp only [parseVal]
        rw [if_neg (by decide : ¬('"' : Char) = 'n'),
          if_neg (by decide : ¬('"' : Char) = 't'),
          if_neg (by decide : ¬('"' : Char) = 'f')]
        simp only [if_true]
        rw [parseStrBody_escList]
        rfl
      | arr l =>
        cases l with
        | nil =>
          have hser : serVal (.arr .nil) ++ r = '[' :: ']' :: r := by
            rw [show serVal (.arr .nil) = ['[', ']'] from rfl]
            rfl
          rw [hser]
          simp [parseVal]
        | cons v tl =>
          have hJl : isJSONL (JSList.cons v tl) = true := by
            simpa [isJSON] using hJ
          have hszl : sizeOf (JSList.cons v tl) ≤ f := by
            have hspec : sizeOf (JSVal.arr (JSList.cons v tl))
                = 1 + sizeOf (JSList.cons v tl) := by simp
            omega
          have hnel : JSList.cons v tl ≠ .nil := fun h => JSList.noConfusion h
          obtain ⟨c, t, hct, hc1, hc2⟩ := serElems_head hnel hJl
          have hser : serVal (.arr (.cons v tl)) ++ r
              = '[' :: (serElems (.cons v tl) ++ ']' :: r) := by
            rw [show serVal (.arr (.cons v tl))
                = '[' :: (serElems (.cons v tl) ++ [']']) from rfl]
            simp
          rw [hser]
          simp only [parseVal]
          rw [if_neg (by decide : ¬('[' : Char) = 'n'),
            if_neg (by decide : ¬('[' : Char) = 't'),
            if_neg (by decide : ¬('[' : Char) = 'f'),
            if_neg (by decide : ¬('[' : Char) = '"')]
          simp only [if_true]
          rw [hct, List.cons_append]
          simp only [if_neg hc1]
          rw [← List.cons_append, ← hct, IH.2.1 (.cons v tl) r hnel hJl hszl]
          rfl
      | obj fs =>
        cases fs with
        | nil =>
          have hser : serVal (.obj .nil) ++ r = '\x7b' :: '\x7d' :: r := by
            rw [show serVal (.obj .nil) = ['\x7b', '\x7d'] from rfl]
            rfl
          rw [hser]
          simp [parseVal]
        | cons k v tl =>
          have hJf : isJSONF (JSFields.cons k v tl) = true := by
            simpa [isJSON] using hJ
          have hszf : sizeOf (JSFields.cons k v tl) ≤ f := by
            have hspec : sizeOf (JSVal.obj (JSFields.cons k v tl))
                = 1 + sizeOf (JSFields.cons k v tl) := by simp
            omega
          have hnef : JSFields.cons k v tl ≠ .nil := fun h => JSFields.noConfusion h
          obtain ⟨t, hct⟩ := serFields_head hnef hJf
          have hser : serVal (.obj (.cons k v tl)) ++ r
              = '\x7b' :: (serFields (.cons k v tl) ++ '\x7d' :: r) := by
            rw [show serVal (.obj (.cons k v tl))
                = '\x7b' :: (serFields (.cons k v tl) ++ ['\x7d']) from rfl]
            simp
          rw [hser]
          simp only [parseVal]
          rw [if_neg (by decide : ¬('\x7b' : Char) = 'n'),
            if_neg (by decide : ¬('\x7b' : Char) = 't'),
            if_neg (by decide : ¬('\x7b' : Char) = 'f'),
            if_neg (by decide : ¬('\x7b' : Char) = '"'),
            if_neg (by decide : ¬('\x7b' : Char) = '[')]
          simp only [if_true]
          rw [hct, List.cons_append]
          simp only [if_neg (by decide : ¬('"' : Char) = '\x7d')]
          rw [← List.cons_append, ← hct, IH.2.2 (.cons k v tl) r hnef hJf hszf]
          rfl
    · cases l with
      | nil => exact absurd rfl hne
      | cons v tl =>
        simp only [isJSONL, Bool.and_eq_true] at hJ
        have hspec : sizeOf (JSList.cons v tl) = 1 + sizeOf v + sizeOf tl := by
          simp
        have hszv : sizeOf v ≤ f := by omega
        cases tl with
        | nil =>
          rw [show serElems (.cons v .nil) = serVal v from rfl]
          simp only [parseElems,
            IH.1 v (']' :: r) hJ.1 hszv (by rfl : headOk (']' :: r) = true)]
        | cons w tl2 =>
          have hne2 : JSList.cons w tl2 ≠ .nil := fun h => JSList.noConfusion h
          have hsz2 : sizeOf (JSList.cons w tl2) ≤ f := by omega
          have hser : serElems (.cons v (.cons w tl2)) ++ ']' :: r
              = serVal v ++ ',' :: (serElems (.cons w tl2) ++ ']' :: r) := by
            rw [show serElems (.cons v (.cons w tl2))
                = serVal v ++ ',' :: serElems (.cons w tl2) from rfl]
            simp
          rw [hser]
          simp only [parseElems,
            IH.1 v (',' :: (serElems (.cons w tl2) ++ ']' :: r)) hJ.1 hszv
              (by rfl : headOk (',' :: (serElems (.cons w tl2) ++ ']' :: r)) = true),
            IH.2.1 (.cons w tl2) r hne2 hJ.2 hsz2, Option.map_some']
    · cases fs with
      | nil => exact absurd rfl hne
      | cons k v tl =>
        simp only [isJSONF, Bool.and_eq_true] at hJ
        have hskip : skipVal v = false := skip_of_isJSON hJ.1
        have hspec : sizeOf (JSFields.cons k v tl)
            = 1 + sizeOf k + sizeOf v + sizeOf tl := by simp
        have hszv : sizeOf v ≤ f := by omega
        cases tl with
        | nil =>
          have hser : serFields (.cons k v .nil) ++ '\x7d' :: r
              = '"' :: (escList k.data ++ '"' :: ':'
                :: (serVal v ++ '\x7d' :: r)) := by
            rw [show serFields (.cons k v .nil)
                = if skipVal v = true then serFields .nil
                  else serStr k ++ ':' :: serVal v ++
                    (if hasField .nil = true then ',' :: serFields .nil
                     else serFields .nil) from rfl]
            rw [if_neg (by simp [hskip]), serStr]
            simp [hasField, serFields]
          rw [hser]
          simp only [parseFields, parseStrBody_escList,
            IH.1 v ('\x7d' :: r) hJ.1 hszv (by rfl : headOk ('\x7d' :: r) = true)]
        | cons k2 w tl2 =>
          have hJw : isJSON w = true := by
            have := hJ.2
            simp only [isJSONF, Bool.and_eq_true] at this
            exact this.1
          have hhf : hasField (.cons k2 w tl2) = true := by
            simp [hasField, skip_of_isJSON hJw]
          have hne2 : JSFields.cons k2 w tl2 ≠ .nil :=
            fun h => JSFields.noConfusion h
          have hsz2 : sizeOf (JSFields.cons k2 w tl2) ≤ f := by omega
          have hser : serFields (.cons k v (.cons k2 w tl2)) ++ '\x7d' :: r
              = '"' :: (escList k.data ++ '"' :: ':'
                :: (serVal v ++ ','
                  :: (serFields (.cons k2 w tl2) ++ '\x7d' :: r))) := by
            rw [show serFields (.cons k v (.cons k2 w tl2))
                = if skipVal v = true then serFields (.cons k2 w tl2)
                  else serStr k ++ ':' :: serVal v ++
                    (if hasField (.cons k2 w tl2) = true
                     then ',' :: serFields (.cons k2 w tl2)
                     else serFields (.cons k2 w tl2)) from rfl]
            rw [if_neg (by simp [hskip]), if_pos hhf, serStr]
            simp
          rw [hser]
          simp only [parseFields, parseStrBody_escList,
            IH.1 v (','
                :: (serFields (.cons k2 w tl2) ++ '\x7d' :: r)) hJ.1 hszv
              (by rfl : headOk (','
                :: (serFields (.cons k2 w tl2) ++ '\x7d' :: r)) = true),
            IH.2.2 (.cons k2 w tl2) r hne2 hJ.2 hsz2, Option.map_some']

/-- The serializer is injective on JSON-representable values. -/
theorem serVal_inj {a b : JSVal} (ha : isJSON a = true) (hb : isJSON b = true)
    (h : serVal a = serVal b) : a = b := by
  have fa := (roundtrip (max (sizeOf a) (sizeOf b))).1 a [] ha
    (le_max_left _ _) rfl
  have fb := (roundtrip (max (sizeOf a) (sizeOf b))).1 b [] hb
    (le_max_right _ _) rfl
  rw [h] at fa
  rw [fa] at fb
  simp only [Option.some.injEq, Prod.mk.injEq] at fb
  exact fb.1

theorem listToJS_inj : ∀ {a b : List JSVal}, listToJS a = listToJS b → a = b
  | [], [], _ => rfl
  | [], _ :: _, h => by simp [listToJS] at h
  | _ :: _, [], h => by simp [listToJS] at h
  | v :: vs, w :: ws, h => by
    simp only [listToJS, JSList.cons.injEq] at h
    rw [h.1, listToJS_inj h.2]

theorem isJSONL_listToJS :
    ∀ args : List JSVal, isJSONL (listToJS args) = argsJSON args
  | [] => rfl
  | v :: vs => by
    simp [listToJS, isJSONL, argsJSON, isJSONL_listToJS vs]

/-- A non-empty argument list never derives the reserved sentinel key. -/
theorem deriveKey_ne_sentinel {args : List JSVal} (h : args ≠ []) :
    deriveKey args ≠ "_" := by
  cases args with
  | nil => exact absurd rfl h
  | cons v vs =>
    show String.mk (serVal (.arr (listToJS (v :: vs)))) ≠ "_"
    intro hEq
    have h2 : serVal (.arr (listToJS (v :: vs))) = ['_'] := by
      simpa using congrArg String.data hEq
    rw [show serVal (.arr (listToJS (v :: vs)))
        = '[' :: (serElems (listToJS (v :: vs)) ++ [']']) from rfl] at h2
    simp at h2

/-- Key derivation is injective on JSON-representable argument lists:
two lists receive the same key exactly when they are structurally equal
(elementwise, with object fields compared in insertion order). -/
theorem deriveKey_inj {a b : List JSVal} (ha : argsJSON a = true)
    (hb : argsJSON b = true) : deriveKey a = deriveKey b ↔ a = b := by
  constructor
  · intro h
    cases a with
    | nil =>
      cases b with
      | nil => rfl
      | cons w ws =>
        exact absurd h.symm (deriveKey_ne_sentinel (by simp))
    | cons v vs =>
      cases b with
      | nil => exact absurd h (deriveKey_ne_sentinel (by simp))
      | cons w ws =>
        have hmk : String.mk (serVal (.arr (listToJS (v :: vs))))
            = String.mk (serVal (.arr (listToJS (w :: ws)))) := h
        have hser : serVal (.arr (listToJS (v :: vs)))
            = serVal (.arr (listToJS (w :: ws))) := by
          simpa using congrArg String.data hmk
        have hJa : isJSON (.arr (listToJS (v :: vs))) = true := by
          rw [show isJSON (.arr (listToJS (v :: vs)))
              = isJSONL (listToJS (v :: vs)) from rfl, isJSONL_listToJS]
          exact ha
        have hJb : isJSON (.arr (listToJS (w :: ws))) = true := by
          rw [show isJSON (.arr (listToJS (w :: ws)))
              = isJSONL (listToJS (w :: ws)) from rfl, isJSONL_listToJS]
          exact hb
        have harr := serVal_inj hJa hJb hser
        simp only [JSVal.arr.injEq] at harr
        exact listToJS_inj harr
  · intro h
    rw [h]

theorem listToJS_map_canon : ∀ args : List JSVal,
    listToJS (args.map canon) = canonL (listToJS args)
  | [] => rfl
  | v :: vs => by
    simp [listToJS, canonL, listToJS_map_canon vs]

theorem memo_hit {β P : Type} (ttl now : Nat)
    (fn : List JSVal → P → Option β × P) (args : List JSVal)
    (st : CacheSt (Option β) P) (v : β)
    (h : memoGet ttl st.store (deriveKey args) now = some v) :
    (memo true ttl fn).call args now st = (some v, st) := by
  simp [memo, h]

theorem memo_miss {β P : Type} (ttl now : Nat)
    (fn : List JSVal → P → Option β × P) (args : List JSVal)
    (st : CacheSt (Option β) P)
    (h : memoGet ttl st.store (deriveKey args) now = none) :
    (memo true ttl fn).call args now st
      = ((fn args st.pstate).1,
          ⟨storeSet st.store (deriveKey args) (fn args st.pstate).1 now,
            (fn args st.pstate).2, st.calls + 1⟩) := by
  simp [memo, h]

theorem memoGet_nil {β : Type} (ttl : Nat) (key : String) (now : Nat) :
    memoGet (β := β) ttl [] key now = none := rfl

theorem aliveAt_now (ttl now : Nat) : aliveAt ttl now now = true := by
  simp [aliveAt]

theorem memoGet_set_same {β : Type} (ttl : Nat)
    (es : List (String × Option β × Nat)) (key : String) (v : β) (now : Nat) :
    memoGet ttl (storeSet es key (some v) now) key now = some v := by
  simp [memoGet, flatGet, storeSet, storeLookup, aliveAt_now]

theorem memoGet_none_of_all {β : Type} (ttl now : Nat) (key : String) :
    ∀ es : List (String × Option β × Nat),
      (∀ e ∈ es, e.2.1 = none) → memoGet ttl es key now = none := by
  intro es
  induction es with
  | nil => intro _; rfl
  | cons e es ih =>
    intro h
    obtain ⟨k, v, t⟩ := e
    have hv : v = none := h (k, v, t) (by simp)
    subst hv
    by_cases hk : k = key
    · by_cases ha : aliveAt ttl t now = true
      · simp [memoGet, flatGet, storeLookup, hk, ha]
      · simp [memoGet, flatGet, storeLookup, hk, ha]
    · have := ih (fun e he => h e (by simp [he]))
      simp only [memoGet, flatGet, storeLookup, if_neg hk] at this ⊢
      exact this

theorem runCallsOn_memo_disabled {β P : Type} (ttl : Nat)
    (fn : List JSVal → P → Option β × P) (now : Nat) :
    ∀ (argss : List (List JSVal)) (st : CacheSt (Option β) P),
      runCallsOn (memo false ttl fn) now argss st
        = ((prodRunArgs fn argss st.pstate).1,
            ⟨st.store, (prodRunArgs fn argss st.pstate).2,
              st.calls + argss.length⟩) := by
  intro argss
  induction argss with
  | nil => intro st; simp [runCallsOn, prodRunArgs]
  | cons args rest ih =>
    intro st
    have harith : st.calls + 1 + rest.length = st.calls + (rest.length + 1) := by
      omega
    have hcall : (memo false ttl fn).call args now st
        = ((fn args st.pstate).1,
            ⟨st.store, (fn args st.pstate).2, st.calls + 1⟩) := rfl
    simp only [runCallsOn, hcall, prodRunArgs, ih, List.length_cons, harith]

theorem runCallsOn_swr_disabled {β P : Type} (mts mtl ftl : Nat)
    (fn : List JSVal → P → β × P) (now : Nat) :
    ∀ (argss : List (List JSVal)) (st : CacheSt β P),
      runCallsOn (swr false mts mtl ftl fn) now argss st
        = ((prodRunArgs fn argss st.pstate).1,
            ⟨st.store, (prodRunArgs fn argss st.pstate).2,
              st.calls + argss.length⟩) := by
  intro argss
  induction argss with
  | nil => intro st; simp [runCallsOn, prodRunArgs]
  | cons args rest ih =>
    intro st
    have harith : st.calls + 1 + rest.length = st.calls + (rest.length + 1) := by
      omega
    have hcall : (swr false mts mtl ftl fn).call args now st
        = ((fn args st.pstate).1,
            ⟨st.store, (fn args st.pstate).2, st.calls + 1⟩) := rfl
    simp only [runCallsOn, hcall, prodRunArgs, ih, List.length_cons, harith]

theorem clearAllCaches_aborts {W E : Type} :
    ∀ (l₁ : List (W → Option E × W)) (c : W → Option E × W)
      (l₂ : List (W → Option E × W)) (w : W),
      (∀ i ∈ l₁, ∀ u, (i u).1 = none) → (∀ u, (c u).1.isSome = true) →
      clearAllCaches (l₁ ++ c :: l₂) w = clearAllCaches (l₁ ++ [c]) w := by
  intro l₁
  induction l₁ with
  | nil =>
    intro c l₂ w _ hc
    have hcw := hc w
    cases hx : (c w).1 with
    | none => rw [hx] at hcw; simp at hcw
    | some e => simp [clearAllCaches, hx]
  | cons i l₁ ih =>
    intro c l₂ w h hc
    have hi : (i w).1 = none := h i (by simp) w
    simp only [List.cons_append, clearAllCaches, hi]
    exact ih c l₂ (i w).2 (fun j hj u => h j (by simp [hj]) u) hc

theorem clearAllCaches_mkInst_ok :
    ∀ (is : List Nat) (w : List Nat),
      clearAllCaches (is.map (fun i => mkInst i false)) w = (none, w ++ is) := by
  intro is
  induction is with
  | nil => intro w; simp [clearAllCaches]
  | cons i is ih =>
    intro w
    simp only [List.map_cons, clearAllCaches, mkInst, if_neg]
    rw [ih (w ++ [i])]
    simp

/-- C1 counterexample: two instances are registered; the first's
`.clear()` throws.  `clearAllCaches` propagates the exception and the
second instance's `.clear()` is never invoked (index 1 is absent from
the invocation log), contradicting the claimed per-instance isolation. -/
theorem clearAllCaches_abort_cex :
    clearAllCaches [mkInst 0 true, mkInst 1 false] ([] : List Nat)
      = (some (), [0])
    ∧ 1 ∉ (clearAllCaches [mkInst 0 true, mkInst 1 false] ([] : List Nat)).2 := by
  exact ⟨rfl, by decide⟩

/-- C1 (amended): `clearAllCaches` invokes `.clear()` on the registered
instances in registration order while they succeed, but an exception
from one instance's `.clear()` aborts the loop and propagates, so
`.clear()` is never invoked on later-registered instances: the run over
a prefix of succeeding instances followed by a throwing one is
indistinguishable from a run in which the later instances were never
registered; when every clear succeeds, all instances are cleared in
registration order. -/
theorem clearAllCaches_order_abort :
    (∀ {W E : Type} (l₁ : List (W → Option E × W)) (c : W → Option E × W)
        (l₂ : List (W → Option E × W)) (w : W),
        (∀ i ∈ l₁, ∀ u, (i u).1 = none) → (∀ u, (c u).1.isSome = true) →
        clearAllCaches (l₁ ++ c :: l₂) w = clearAllCaches (l₁ ++ [c]) w)
    ∧ (∀ (is : List Nat) (w : List Nat),
        clearAllCaches (is.map (fun i => mkInst i false)) w = (none, w ++ is)) :=
  ⟨fun l₁ c l₂ w h hc => clearAllCaches_aborts l₁ c l₂ w h hc,
    clearAllCaches_mkInst_ok⟩

/-- C1 witness: the amended theorem applied to concrete instances. -/
theorem clearAllCaches_order_abort_witness :
    clearAllCaches [mkInst 0 false, mkInst 1 true, mkInst 2 false]
        ([] : List Nat)
      = clearAllCaches [mkInst 0 false, mkInst 1 true] ([] : List Nat)
    ∧ clearAllCaches [mkInst 3 false, mkInst 4 false] ([] : List Nat)
        = (none, [3, 4]) := by
  constructor
  · exact clearAllCaches_order_abort.1 [mkInst 0 false] (mkInst 1 true)
      [mkInst 2 false] []
      (by intro i hi u; simp only [List.mem_singleton] at hi; subst hi; rfl)
      (fun u => rfl)
  · have h := clearAllCaches_order_abort.2 [3, 4] []
    simpa using h

/-- C2 counterexample: an argument list containing a bare function is
serialized with no error, and its key collides with the key of the
structurally distinct list containing null: both derive "[null]". -/
theorem deriveKey_func_null_collision :
    deriveKey [JSVal.func] = deriveKey [JSVal.null]
    ∧ ([JSVal.func] : List JSVal) ≠ [JSVal.null]
    ∧ deriveKey [JSVal.func] = "[null]" :=
  ⟨rfl, by decide, rfl⟩

/-- C2 (amended): key derivation never throws for acyclic arguments;
instead every argument list derives exactly the key of its
canonicalization, in which non-serializable leaves (functions,
undefined) become null in array positions and are dropped as object
fields — so a list holding such a value silently collides with the
structurally distinct canonicalized list.  (Cyclic structures, for which
JSON.stringify does throw synchronously, are not representable here.) -/
theorem deriveKey_canon_collision : ∀ args : List JSVal,
    deriveKey args = deriveKey (args.map canon)
    ∧ argsJSON (args.map canon) = true := by
  intro args
  constructor
  · cases args with
    | nil => rfl
    | cons v vs =>
      show String.mk (serVal (.arr (listToJS (v :: vs))))
          = String.mk (serVal (.arr (listToJS ((v :: vs).map canon))))
      rw [listToJS_map_canon,
        show JSVal.arr (canonL (listToJS (v :: vs)))
            = canon (.arr (listToJS (v :: vs))) from rfl,
        serVal_canon]
  · rw [← isJSONL_listToJS, listToJS_map_canon]
    exact isJSONL_canon _

/-- C3 counterexample: the two argument lists hold the same object up to
field insertion order, hence are deep-equal in the JavaScript sense
(same length, elementwise deep equality), yet they derive different
keys, because JSON.stringify preserves insertion order. -/
theorem deriveKey_deepEqual_cex :
    jsDeepEqualArgs
        [JSVal.obj (.cons "a" (.num 1) (.cons "b" (.num 2) .nil))]
        [JSVal.obj (.cons "b" (.num 2) (.cons "a" (.num 1) .nil))] = true
    ∧ deriveKey [JSVal.obj (.cons "a" (.num 1) (.cons "b" (.num 2) .nil))]
        ≠ deriveKey [JSVal.obj (.cons "b" (.num 2) (.cons "a" (.num 1) .nil))] := by
  exact ⟨rfl, by decide⟩

/-- C3 (amended): for JSON-representable argument lists the key deriver
produces the same string key exactly when the lists are structurally
equal with object fields compared in insertion order; deep-equal lists
whose objects merely differ in field insertion order may derive
different keys. -/
theorem deriveKey_structural_iff {a b : List JSVal}
    (ha : argsJSON a = true) (hb : argsJSON b = true) :
    deriveKey a = deriveKey b ↔ a = b :=
  deriveKey_inj ha hb

/-- C3 witness: the amended equivalence at concrete lists. -/
theorem deriveKey_structural_iff_witness :
    argsJSON [JSVal.num 3] = true ∧ argsJSON [JSVal.num 4] = true
    ∧ (deriveKey [JSVal.num 3] = deriveKey [JSVal.num 4]
        ↔ ([JSVal.num 3] : List JSVal) = [JSVal.num 4]) :=
  ⟨rfl, rfl, deriveKey_structural_iff rfl rfl⟩

/-- C4: a present defined stored value — the falsy values 0, "", false
and null are all `some` values here, distinct from the undefined `none`
— is returned as a hit without invoking the producer and without
touching state, while an undefined read invokes the producer: absence
and present-but-falsy are distinguished by the `existing !== undefined`
test. -/
theorem memo_falsy_hit_distinguished {β P : Type} (ttl now : Nat)
    (fn : List JSVal → P → Option β × P) (args : List JSVal)
    (st : CacheSt (Option β) P) (v : β) :
    (memoGet ttl st.store (deriveKey args) now = some v →
      (memo true ttl fn).call args now st = (some v, st))
    ∧ (memoGet ttl st.store (deriveKey args) now = none →
      (memo true ttl fn).call args now st
        = ((fn args st.pstate).1,
            ⟨storeSet st.store (deriveKey args) (fn args st.pstate).1 now,
              (fn args st.pstate).2, st.calls + 1⟩)) :=
  ⟨fun h => memo_hit ttl now fn args st v h,
    fun h => memo_miss ttl now fn args st h⟩

/-- C4 witness: a stored falsy value (the number 0) is served as a hit
without invoking the version producer. -/
theorem memo_falsy_hit_distinguished_witness :
    memoGet 5 [("_", some 0, 0)] (deriveKey []) 3 = some 0
    ∧ (memo true 5 verProdMemo).call [] 3 ⟨[("_", some 0, 0)], 0, 0⟩
        = (some 0, ⟨[("_", some 0, 0)], 0, 0⟩) :=
  ⟨rfl,
    (memo_falsy_hit_distinguished 5 3 verProdMemo []
      ⟨[("_", some 0, 0)], 0, 0⟩ 0).1 rfl⟩

/-- C5: the key deriver maps the empty argument list to the sentinel
"_", every non-empty list derives a different key, and consequently two
consecutive zero-argument calls through a memo wrapper whose producer
resolves to a defined value invoke the producer exactly once, the second
call returning the first call's value. -/
theorem deriveKey_sentinel_zero_arg_memo {β P : Type} (ttl now : Nat)
    (fn : List JSVal → P → Option β × P) (p0 : P) (v : β)
    (hfn : (fn [] p0).1 = some v) :
    deriveKey [] = "_"
    ∧ (∀ args : List JSVal, args ≠ [] → deriveKey args ≠ "_")
    ∧ (((memo true ttl fn).call [] now ⟨[], p0, 0⟩).1 = some v
       ∧ ((memo true ttl fn).call [] now
            (((memo true ttl fn).call [] now ⟨[], p0, 0⟩).2)).1 = some v
       ∧ ((memo true ttl fn).call [] now
            (((memo true ttl fn).call [] now ⟨[], p0, 0⟩).2)).2.calls = 1) := by
  refine ⟨rfl, fun args hne => deriveKey_ne_sentinel hne, ?_⟩
  have h1 := memo_miss ttl now fn [] (⟨[], p0, 0⟩ : CacheSt (Option β) P) rfl
  rw [hfn] at h1
  have h2 := memo_hit ttl now fn []
    (⟨storeSet [] (deriveKey []) (some v) now, (fn [] p0).2, 0 + 1⟩ :
      CacheSt (Option β) P) v (memoGet_set_same ttl [] (deriveKey []) v now)
  refine ⟨by rw [h1], ?_, ?_⟩ <;> rw [h1] <;> simp [h2]

/-- C5 witness: the sentinel and single-invocation behavior at the
version producer. -/
theorem deriveKey_sentinel_zero_arg_memo_witness :
    (verProdMemo [] 0).1 = some 1
    ∧ (((memo true 7 verProdMemo).call [] 5 ⟨[], 0, 0⟩).1 = some 1
       ∧ ((memo true 7 verProdMemo).call [] 5
            (((memo true 7 verProdMemo).call [] 5 ⟨[], 0, 0⟩).2)).1 = some 1
       ∧ ((memo true 7 verProdMemo).call [] 5
            (((memo true 7 verProdMemo).call [] 5 ⟨[], 0, 0⟩).2)).2.calls = 1) :=
  ⟨rfl, (deriveKey_sentinel_zero_arg_memo 7 5 verProdMemo 0 1 rfl).2.2⟩

/-- C6: after `.clear()` — and `clearAllCaches` does nothing but invoke
each registered instance's `.clear()` — the next invocation is treated
as absent for every key: both the memo and the SWR wrapper invoke the
producer, return its freshly produced value, and advance the invocation
count; in the version scenario the first call returns version 1 and the
call following a clear returns version 2, never the cleared value. -/
theorem clear_forces_refetch {β P : Type} (ttl mts mtl ftl now2 : Nat)
    (fnm : List JSVal → P → Option β × P) (fns : List JSVal → P → β × P)
    (args : List JSVal) (stm : CacheSt (Option β) P) (sts : CacheSt β P) :
    (((memo true ttl fnm).call args now2 ((memo true ttl fnm).clear stm).2).1
        = (fnm args stm.pstate).1
     ∧ ((memo true ttl fnm).call args now2
          ((memo true ttl fnm).clear stm).2).2.calls = stm.calls + 1)
    ∧ (((swr true mts mtl ftl fns).call args now2
          ((swr true mts mtl ftl fns).clear sts).2).1
        = (fns args sts.pstate).1
       ∧ ((swr true mts mtl ftl fns).call args now2
            ((swr true mts mtl ftl fns).clear sts).2).2.calls = sts.calls + 1)
    ∧ (((memo true 9 verProdMemo).call [] 0 ⟨[], 0, 0⟩).1 = some 1
       ∧ ((memo true 9 verProdMemo).call [] 0
            (((memo true 9 verProdMemo).clear
              (((memo true 9 verProdMemo).call [] 0 ⟨[], 0, 0⟩).2)).2)).1
          = some 2)
    ∧ (((swr true 3 6 12 verProdSwr).call [] 0 ⟨[], 0, 0⟩).1 = 1
       ∧ ((swr true 3 6 12 verProdSwr).call [] 0
            (((swr true 3 6 12 verProdSwr).clear
              (((swr true 3 6 12 verProdSwr).call [] 0 ⟨[], 0, 0⟩).2)).2)).1
          = 2) := by
  refine ⟨⟨?_, ?_⟩, ⟨?_, ?_⟩, ⟨by decide, by decide⟩, ⟨by decide, by decide⟩⟩
  · simp [memo, memoGet, flatGet, storeLookup]
  · simp [memo, memoGet, flatGet, storeLookup]
  · simp [swr, flatGet, storeLookup]
  · simp [swr, flatGet, storeLookup]

/-- C7: with caching disabled both wrappers are pure pass-throughs: over
any sequence of argument lists the producer is invoked exactly once per
call with that call's arguments (results and final producer state equal
direct iteration of the producer, the invocation count grows by the
number of calls, the store is untouched), and `.clear()` is a no-op that
never throws. -/
theorem disabled_passthrough {β P : Type} (ttl mts mtl ftl now : Nat)
    (fnm : List JSVal → P → Option β × P) (fns : List JSVal → P → β × P)
    (argss : List (List JSVal)) (stm : CacheSt (Option β) P)
    (sts : CacheSt β P) :
    runCallsOn (memo false ttl fnm) now argss stm
      = ((prodRunArgs fnm argss stm.pstate).1,
          ⟨stm.store, (prodRunArgs fnm argss stm.pstate).2,
            stm.calls + argss.length⟩)
    ∧ (memo false ttl fnm).clear stm = (none, stm)
    ∧ runCallsOn (swr false mts mtl ftl fns) now argss sts
      = ((prodRunArgs fns argss sts.pstate).1,
          ⟨sts.store, (prodRunArgs fns argss sts.pstate).2,
            sts.calls + argss.length⟩)
    ∧ (swr false mts mtl ftl fns).clear sts = (none, sts) :=
  ⟨runCallsOn_memo_disabled ttl fnm now argss stm, rfl,
    runCallsOn_swr_disabled mts mtl ftl fns now argss sts, rfl⟩

/-- C8: the LRU capacity configured for an SWR store is exactly twice
the caller-specified logical limit when that limit is positive — so the
two physical entries of each of up to `max` logical keys always fit —
and 0 (unlimited) when the limit is 0 or omitted. -/
theorem swr_lru_doubling :
    (∀ max : Nat, 0 < max →
      swrLruSize (some max) = 2 * max
      ∧ ∀ k, k ≤ max → 2 * k ≤ swrLruSize (some max))
    ∧ swrLruSize none = 0 ∧ swrLruSize (some 0) = 0 := by
  refine ⟨fun max hmax => ⟨?_, fun k hk => ?_⟩, rfl, rfl⟩
  · simp [swrLruSize, Nat.pos_iff_ne_zero.mp hmax]
    omega
  · simp [swrLruSize, Nat.pos_iff_ne_zero.mp hmax]
    omega

/-- C8 witness: the doubling at a concrete limit. -/
theorem swr_lru_doubling_witness :
    (0 : Nat) < 3 ∧ swrLruSize (some 3) = 2 * 3
    ∧ (2 : Nat) ≤ 3 ∧ 2 * 2 ≤ swrLruSize (some 3) :=
  ⟨by decide, (swr_lru_doubling.1 3 (by decide)).1, by decide,
    (swr_lru_doubling.1 3 (by decide)).2 2 (by decide)⟩

/-- C9: the physical TTL backstop of an SWR store is exactly — hence at
least — twice the configured maximum-time-to-live, and it never fires on
an entry that the application-level freshness classification would not
already deem expired: whenever the backstop treats an entry as dead, the
entry's age is at least `maxTimeToLive`. -/
theorem flat_cache_ttl_backstop (m : Nat) :
    FLAT_CACHE_TTL m = 2 * m
    ∧ 2 * m ≤ FLAT_CACHE_TTL m
    ∧ ∀ t now, aliveAt (FLAT_CACHE_TTL m) t now = false → m ≤ now - t := by
  refine ⟨by simp [FLAT_CACHE_TTL]; omega, by simp [FLAT_CACHE_TTL]; omega,
    fun t now h => ?_⟩
  simp only [aliveAt, FLAT_CACHE_TTL, Bool.or_eq_false_iff,
    beq_eq_false_iff_ne, ne_eq, decide_eq_false_iff_not, Nat.not_le] at h
  omega

/-- C9 witness: the backstop inequality at a concrete age. -/
theorem flat_cache_ttl_backstop_witness :
    aliveAt (FLAT_CACHE_TTL 3) 0 7 = false ∧ (3 : Nat) ≤ 7 - 0 :=
  ⟨rfl, (flat_cache_ttl_backstop 3).2.2 0 7 rfl⟩

/-- C10: a memo-wrapped producer that resolves to undefined is never
cached: starting from a store holding no defined value, every call is a
miss — the producer is invoked once per call and every call returns
undefined — because a stored undefined is indistinguishable from absence
in the `existing !== undefined` hit test. -/
theorem memo_undefined_never_cached {β P : Type} (ttl now : Nat)
    (fn : List JSVal → P → Option β × P)
    (hfn : ∀ a p, (fn a p).1 = none) :
    ∀ (argss : List (List JSVal)) (st : CacheSt (Option β) P),
      (∀ e ∈ st.store, e.2.1 = none) →
      (runCallsOn (memo true ttl fn) now argss st).2.calls
          = st.calls + argss.length
      ∧ ∀ x ∈ (runCallsOn (memo true ttl fn) now argss st).1, x = none := by
  intro argss
  induction argss with
  | nil => intro st _; simp [runCallsOn]
  | cons args rest ih =>
    intro st hst
    have hget : memoGet ttl st.store (deriveKey args) now = none :=
      memoGet_none_of_all ttl now (deriveKey args) st.store hst
    have hcall := memo_miss ttl now fn args st hget
    have hst2 : ∀ e ∈ storeSet st.store (deriveKey args)
        (fn args st.pstate).1 now, e.2.1 = none := by
      intro e he
      rw [storeSet, List.mem_cons] at he
      rcases he with he | he
      · rw [he]
        exact hfn args st.pstate
      · exact hst e he
    have hrec := ih (⟨storeSet st.store (deriveKey args)
        (fn args st.pstate).1 now, (fn args st.pstate).2, st.calls + 1⟩ :
        CacheSt (Option β) P) hst2
    constructor
    · simp only [runCallsOn, hcall]
      rw [hrec.1]
      simp [List.length_cons]
      omega
    · intro x hx
      simp only [runCallsOn, hcall, List.mem_cons] at hx
      rcases hx with hx | hx
      · rw [hx]
        exact hfn args st.pstate
      · exact hrec.2 x hx

/-- C10 witness: two zero-argument calls of an undefined-resolving
producer both miss. -/
theorem memo_undefined_never_cached_witness :
    (∀ (a : List JSVal) (p : Nat),
      ((fun (_ : List JSVal) (p : Nat) => ((none : Option Nat), p)) a p).1
        = none)
    ∧ (runCallsOn
        (memo true 4 (fun (_ : List JSVal) (p : Nat) => ((none : Option Nat), p)))
        0 [[], []] ⟨[], 0, 0⟩).2.calls = 0 + 2
    ∧ ∀ x ∈ (runCallsOn
        (memo true 4 (fun (_ : List JSVal) (p : Nat) => ((none : Option Nat), p)))
        0 [[], []] ⟨[], 0, 0⟩).1, x = none :=
  ⟨fun a p => rfl,
    (memo_undefined_never_cached 4 0 _ (fun a p => rfl) [[], []] ⟨[], 0, 0⟩
      (by intro e he; simp at he)).1,
    (memo_undefined_never_cached 4 0 _ (fun a p => rfl) [[], []] ⟨[], 0, 0⟩
      (by intro e he; simp at he)).2⟩

end AstroCache
